import Mathlib

/-!
Verification of the query-plan data model and its validation contract.

The data model (QueryType, Query, QueryPlan) is embedded from
src/question_answer_subquery.py.  The graph validator and the
topological-ordering utility are not present in the source file (the spec
describes them as an implicit requirement); they are modelled from the
spec and marked as such in their doc comments.
-/

set_option maxHeartbeats 1000000

namespace QuerySub

/-- Embedded from QueryType in src/question_answer_subquery.py: a string-valued
enumeration with exactly two members, SINGLE_QUESTION (value "SINGLE") and
MERGE_MULTIPLE_RESPONSES (value "MERGE_MULTIPLE_RESPONSES"). -/
inductive QueryType where
  | SINGLE_QUESTION
  | MERGE_MULTIPLE_RESPONSES
deriving DecidableEq, Repr

/-- The string value carried by each enumeration member, as in the Python
str-valued enum. -/
def QueryType.value : QueryType → String
  | .SINGLE_QUESTION => "SINGLE"
  | .MERGE_MULTIPLE_RESPONSES => "MERGE_MULTIPLE_RESPONSES"

/-- Embedded from Query in src/question_answer_subquery.py: id is a plain
integer, question a plain string, dependancies (spelling as in the source)
a list of integers defaulting to empty, node_type defaults to
SINGLE_QUESTION, original_question defaults to false.  The pydantic model
declares no further constraints. -/
structure Query where
  id : Int
  question : String
  dependancies : List Int := []
  node_type : QueryType := QueryType.SINGLE_QUESTION
  original_question : Bool := false
deriving DecidableEq, Repr

/-- Embedded from QueryPlan in src/question_answer_subquery.py: a container
holding the list of Query nodes, with no constraints. -/
structure QueryPlan where
  query_graph : List Query
deriving DecidableEq, Repr

/-- JSON-like values, used to model the serialized (dict) form of the
pydantic models. -/
inductive JsonV where
  | jnum (n : Int)
  | jstr (s : String)
  | jbool (b : Bool)
  | jarr (l : List JsonV)
  | jobj (l : List (String × JsonV))

/-- Serialization of a Query node, mirroring pydantic dict()/json() on the
model: the record keys are exactly the field names declared in the source,
in declaration order. -/
def Query.toDict (q : Query) : List (String × JsonV) :=
  [("id", JsonV.jnum q.id),
   ("question", JsonV.jstr q.question),
   ("dependancies", JsonV.jarr (q.dependancies.map JsonV.jnum)),
   ("node_type", JsonV.jstr q.node_type.value),
   ("original_question", JsonV.jbool q.original_question)]

/-- Serialization of a QueryPlan, mirroring pydantic dict()/json(): a mapping
with the single key query_graph holding the list of node records. -/
def QueryPlan.toDict (p : QueryPlan) : List (String × JsonV) :=
  [("query_graph", JsonV.jarr (p.query_graph.map (fun q => JsonV.jobj q.toDict)))]

/-- Key lookup in a serialized record. -/
def lookupKey (l : List (String × JsonV)) (k : String) : Option JsonV :=
  (l.find? (fun p => p.1 == k)).map (·.2)

/-- Parsing an enumeration member from its string value, mirroring pydantic
validation of a str-valued enum field: the member whose value equals the
input is returned, every other string is rejected. -/
def QueryType.parse (s : String) : Option QueryType :=
  [QueryType.SINGLE_QUESTION, QueryType.MERGE_MULTIPLE_RESPONSES].find?
    (fun k => k.value == s)

/-- The ids of the nodes of a plan, in declaration order. -/
def QueryPlan.ids (g : QueryPlan) : List Int :=
  g.query_graph.map (·.id)

/-- Modelled from the spec: the error taxonomy of the graph validator
(section 7), absent from the source file.  Each structural error carries the
offending id where the spec provides one. -/
inductive GraphError where
  | DuplicateId (i : Int)
  | DanglingDependency (i : Int)
  | CyclicDependency
deriving DecidableEq, Repr

/-- A node is ready once all of its dependencies have been emitted. -/
def readyQ (emitted : List Int) (q : Query) : Bool :=
  q.dependancies.all (fun d => emitted.contains d)

/-- Remove the first ready node from the pending list, keeping the order of
the others; none when no pending node is ready. -/
def extractReady (emitted : List Int) : List Query → Option (Query × List Query)
  | [] => none
  | q :: qs =>
    if readyQ emitted q then some (q, qs)
    else (extractReady emitted qs).map (fun pr => (pr.1, q :: pr.2))

/-- Modelled from the spec: the loop of Kahn's topological sort (section 4.1
names Kahn's algorithm; section 4.2 asks for a deterministic stable choice
among ready nodes — here the first ready node in list order).  The fuel
argument bounds the number of rounds by the number of pending nodes; when no
pending node is ready the sort fails with CyclicDependency. -/
def kahnAux : List Int → List Query → Nat → Except GraphError (List Query)
  | _, [], _ => .ok []
  | _, _ :: _, 0 => .error .CyclicDependency
  | emitted, q :: qs, fuel + 1 =>
    match extractReady emitted (q :: qs) with
    | none => .error .CyclicDependency
    | some (r, rest) => (kahnAux (r.id :: emitted) rest fuel).map (fun l => r :: l)

/-- Modelled from the spec: topologicalOrder (section 4.2), absent from the
source file — a linearization of the nodes in which every node appears after
all of its dependencies, failing with CyclicDependency when none exists. -/
def topologicalOrder (g : QueryPlan) : Except GraphError (List Query) :=
  kahnAux [] g.query_graph g.query_graph.length

/-- First id occurring twice in a list, none when the list has no repeats. -/
def findDup : List Int → Option Int
  | [] => none
  | x :: xs => if x ∈ xs then some x else findDup xs

/-- First dependency id with no corresponding node, scanning nodes and their
dependency lists in order. -/
def findDanglingDep (g : QueryPlan) : Option Int :=
  (g.query_graph.flatMap (·.dependancies)).find? (fun d => !(g.ids.contains d))

/-- Modelled from the spec: validate (section 4.1), absent from the source
file.  Checks the three structural errors in the order the spec lists them:
DuplicateId, then DanglingDependency, then CyclicDependency (detected, as
section 4.1 prescribes, by attempting a topological ordering). -/
def validate (g : QueryPlan) : Except GraphError Unit :=
  match findDup g.ids with
  | some i => .error (.DuplicateId i)
  | none =>
    match findDanglingDep g with
    | some d => .error (.DanglingDependency d)
    | none =>
      match topologicalOrder g with
      | .ok _ => .ok ()
      | .error _ => .error .CyclicDependency

/-- The call-shaped form of validate: the result of the call together with the
graph as it stands after the call returns.  The spec (section 5) makes the
core pure, so the graph after the call is the input itself. -/
def validateRun (g : QueryPlan) : Except GraphError Unit × QueryPlan :=
  (validate g, g)

/-- The call-shaped form of topologicalOrder, as for validateRun. -/
def topologicalOrderRun (g : QueryPlan) : Except GraphError (List Query) × QueryPlan :=
  (topologicalOrder g, g)

/-- The dependency relation induced by a node list: a depends on b when some
node with id a lists b among its dependancies. -/
def depRelL (qs : List Query) (a b : Int) : Prop :=
  ∃ q ∈ qs, q.id = a ∧ b ∈ q.dependancies

/-- The dependency relation of a plan. -/
def depRel (g : QueryPlan) : Int → Int → Prop :=
  depRelL g.query_graph

/-- The dependency relation contains a cycle: some id transitively depends on
itself. -/
def HasCycle (g : QueryPlan) : Prop :=
  ∃ a, Relation.TransGen (depRel g) a a

/-- All node ids of the plan are distinct. -/
abbrev UniqueIds (g : QueryPlan) : Prop :=
  g.ids.Nodup

/-- Every dependency id names a node of the plan. -/
abbrev NoDangling (g : QueryPlan) : Prop :=
  ∀ q ∈ g.query_graph, ∀ d ∈ q.dependancies, d ∈ g.ids

/-- The sequence respects dependencies relative to the already emitted ids:
each node's dependencies lie among the emitted ids and the ids of the
preceding nodes of the sequence. -/
def respects (emitted : List Int) : List Query → Prop
  | [] => True
  | q :: rest => (∀ d ∈ q.dependancies, d ∈ emitted) ∧ respects (q.id :: emitted) rest

/-- Every node of the sequence appears after all of its dependencies. -/
def afterDeps (l : List Query) : Prop :=
  ∀ i : Fin l.length, ∀ d ∈ (l.get i).dependancies, d ∈ (l.take i.1).map (·.id)
theorem extractReady_cons_ready {em : List Int} {x : Query} (xs : List Query)
    (hr : readyQ em x = true) :
    extractReady em (x :: xs) = some (x, xs) := by
  simp [extractReady, hr]

theorem extractReady_cons_notready {em : List Int} {x : Query} (xs : List Query)
    (hr : readyQ em x = false) :
    extractReady em (x :: xs) =
      (extractReady em xs).map (fun pr => (pr.1, x :: pr.2)) := by
  simp [extractReady, hr]

theorem kahnAux_nil (em : List Int) (f : Nat) : kahnAux em [] f = .ok [] := by
  cases f <;> rfl

theorem kahnAux_cons_none {em : List Int} {x : Query} {xs : List Query} (f : Nat)
    (hex : extractReady em (x :: xs) = none) :
    kahnAux em (x :: xs) (f + 1) = .error .CyclicDependency := by
  simp [kahnAux, hex]

theorem kahnAux_cons_some {em : List Int} {x r : Query} {xs rest : List Query} (f : Nat)
    (hex : extractReady em (x :: xs) = some (r, rest)) :
    kahnAux em (x :: xs) (f + 1) =
      (kahnAux (r.id :: em) rest f).map (fun l => r :: l) := by
  simp [kahnAux, hex]

theorem extractReady_perm (em : List Int) :
    ∀ (p : List Query) (q : Query) (rest : List Query),
      extractReady em p = some (q, rest) → p.Perm (q :: rest) := by
  intro p
  induction p with
  | nil => intro q rest h; simp [extractReady] at h
  | cons x xs ih =>
    intro q rest h
    cases hr : readyQ em x with
    | true =>
      rw [extractReady_cons_ready xs hr] at h
      simp only [Option.some.injEq, Prod.mk.injEq] at h
      obtain ⟨h1, h2⟩ := h
      subst h1; subst h2
      exact List.Perm.refl _
    | false =>
      rw [extractReady_cons_notready xs hr] at h
      cases hm : extractReady em xs with
      | none => rw [hm] at h; simp at h
      | some pr =>
        obtain ⟨r, rest'⟩ := pr
        rw [hm] at h
        simp only [Option.map_some', Option.some.injEq, Prod.mk.injEq] at h
        obtain ⟨h1, h2⟩ := h
        subst h1; subst h2
        exact ((ih _ _ hm).cons x).trans (List.Perm.swap _ _ _)

theorem extractReady_ready (em : List Int) :
    ∀ (p : List Query) (q : Query) (rest : List Query),
      extractReady em p = some (q, rest) → readyQ em q = true := by
  intro p
  induction p with
  | nil => intro q rest h; simp [extractReady] at h
  | cons x xs ih =>
    intro q rest h
    cases hr : readyQ em x with
    | true =>
      rw [extractReady_cons_ready xs hr] at h
      simp only [Option.some.injEq, Prod.mk.injEq] at h
      obtain ⟨h1, h2⟩ := h
      subst h1; subst h2
      exact hr
    | false =>
      rw [extractReady_cons_notready xs hr] at h
      cases hm : extractReady em xs with
      | none => rw [hm] at h; simp at h
      | some pr =>
        obtain ⟨r, rest'⟩ := pr
        rw [hm] at h
        simp only [Option.map_some', Option.some.injEq, Prod.mk.injEq] at h
        obtain ⟨h1, h2⟩ := h
        subst h1; subst h2
        exact ih _ _ hm

theorem extractReady_isSome (em : List Int) :
    ∀ (p : List Query) (q : Query), q ∈ p → readyQ em q = true →
      (extractReady em p).isSome := by
  intro p
  induction p with
  | nil => intro q h; simp at h
  | cons x xs ih =>
    intro q hmem hq
    cases hr : readyQ em x with
    | true => rw [extractReady_cons_ready xs hr]; rfl
    | false =>
      rcases List.mem_cons.mp hmem with h | hxs
      · subst h; rw [hq] at hr; exact absurd hr (by simp)
      · have hs := ih q hxs hq
        rw [extractReady_cons_notready xs hr]
        cases hm : extractReady em xs with
        | none => rw [hm] at hs; simp at hs
        | some pr => simp

theorem readyQ_mem (em : List Int) (q : Query) (h : readyQ em q = true) :
    ∀ d ∈ q.dependancies, d ∈ em := by
  intro d hd
  simp only [readyQ, List.all_eq_true] at h
  simpa using h d hd

theorem kahnAux_ok_perm :
    ∀ (fuel : Nat) (em : List Int) (p l : List Query),
      kahnAux em p fuel = .ok l → l.Perm p := by
  intro fuel
  induction fuel with
  | zero =>
    intro em p l h
    cases p with
    | nil =>
      rw [kahnAux_nil] at h
      simp only [Except.ok.injEq] at h
      subst h; exact List.Perm.refl _
    | cons x xs => simp [kahnAux] at h
  | succ f ih =>
    intro em p l h
    cases p with
    | nil =>
      rw [kahnAux_nil] at h
      simp only [Except.ok.injEq] at h
      subst h; exact List.Perm.refl _
    | cons x xs =>
      cases hex : extractReady em (x :: xs) with
      | none => rw [kahnAux_cons_none f hex] at h; simp at h
      | some pr =>
        obtain ⟨r, rest⟩ := pr
        rw [kahnAux_cons_some f hex] at h
        cases hk : kahnAux (r.id :: em) rest f with
        | error e => rw [hk] at h; simp [Except.map] at h
        | ok l' =>
          rw [hk] at h
          simp only [Except.map, Except.ok.injEq] at h
          subst h
          exact ((ih _ _ _ hk).cons r).trans (extractReady_perm em _ _ _ hex).symm

theorem kahnAux_ok_respects :
    ∀ (fuel : Nat) (em : List Int) (p l : List Query),
      kahnAux em p fuel = .ok l → respects em l := by
  intro fuel
  induction fuel with
  | zero =>
    intro em p l h
    cases p with
    | nil =>
      rw [kahnAux_nil] at h
      simp only [Except.ok.injEq] at h
      subst h; simp [respects]
    | cons x xs => simp [kahnAux] at h
  | succ f ih =>
    intro em p l h
    cases p with
    | nil =>
      rw [kahnAux_nil] at h
      simp only [Except.ok.injEq] at h
      subst h; simp [respects]
    | cons x xs =>
      cases hex : extractReady em (x :: xs) with
      | none => rw [kahnAux_cons_none f hex] at h; simp at h
      | some pr =>
        obtain ⟨r, rest⟩ := pr
        rw [kahnAux_cons_some f hex] at h
        cases hk : kahnAux (r.id :: em) rest f with
        | error e => rw [hk] at h; simp [Except.map] at h
        | ok l' =>
          rw [hk] at h
          simp only [Except.map, Except.ok.injEq] at h
          subst h
          exact ⟨readyQ_mem em r (extractReady_ready em _ _ _ hex), ih _ _ _ hk⟩

theorem kahnAux_error :
    ∀ (fuel : Nat) (em : List Int) (p : List Query) (e : GraphError),
      kahnAux em p fuel = .error e → e = .CyclicDependency := by
  intro fuel
  induction fuel with
  | zero =>
    intro em p e h
    cases p with
    | nil => rw [kahnAux_nil] at h; simp at h
    | cons x xs => simp [kahnAux] at h; exact h.symm
  | succ f ih =>
    intro em p e h
    cases p with
    | nil => rw [kahnAux_nil] at h; simp at h
    | cons x xs =>
      cases hex : extractReady em (x :: xs) with
      | none =>
        rw [kahnAux_cons_none f hex] at h
        simp only [Except.error.injEq] at h
        exact h.symm
      | some pr =>
        obtain ⟨r, rest⟩ := pr
        rw [kahnAux_cons_some f hex] at h
        cases hk : kahnAux (r.id :: em) rest f with
        | error e' =>
          rw [hk] at h
          simp only [Except.map, Except.error.injEq] at h
          rw [← h]; exact ih _ _ _ hk
        | ok l' => rw [hk] at h; simp [Except.map] at h

theorem respects_mem (em : List Int) (l : List Query) (h : respects em l) :
    ∀ i : Fin l.length, ∀ d ∈ (l.get i).dependancies,
      d ∈ em ∨ d ∈ (l.take i.1).map (·.id) := by
  induction l generalizing em with
  | nil => intro i; exact absurd i.2 (by simp)
  | cons q rest ih =>
    intro i
    obtain ⟨hq, hrest⟩ := h
    refine Fin.cases ?_ ?_ i
    · intro d hd
      exact Or.inl (hq d hd)
    · intro j d hd
      have := ih (q.id :: em) hrest j d hd
      rcases this with hmem | hmem
      · rcases List.mem_cons.mp hmem with rfl | hmem'
        · exact Or.inr (by simp)
        · exact Or.inl hmem'
      · refine Or.inr ?_
        simp only [Fin.val_succ, List.take_succ_cons, List.map_cons]
        exact List.mem_cons_of_mem _ hmem

theorem no_transGen_of_no_rel {α : Type} {r : α → α → Prop}
    (h : ∀ a b, ¬ r a b) {a b : α} (ht : Relation.TransGen r a b) : False := by
  induction ht with
  | single hr => exact h _ _ hr
  | tail _ hr _ => exact h _ _ hr

theorem transGen_cons_split (q : Query) (rest : List Query) (em : List Int)
    (hq : ∀ d ∈ q.dependancies, d ∈ em)
    (hdisj : ∀ x ∈ em, x ∉ (q :: rest).map (·.id)) :
    ∀ a b, Relation.TransGen (depRelL (q :: rest)) a b →
      b ∈ em ∨ Relation.TransGen (depRelL rest) a b := by
  intro a b ht
  induction ht with
  | single hr =>
    rcases hr with ⟨w, hw, hwid, hwb⟩
    rcases List.mem_cons.mp hw with h | hwrest
    · subst h; exact Or.inl (hq _ hwb)
    · exact Or.inr (Relation.TransGen.single ⟨w, hwrest, hwid, hwb⟩)
  | tail _ hr ihab =>
    rcases hr with ⟨w, hw, hwid, hwc⟩
    rcases ihab with hbem | hrest'
    · exact absurd (hwid ▸ (List.mem_map_of_mem (·.id) hw)) (hdisj _ hbem)
    · rcases List.mem_cons.mp hw with h | hwrest
      · subst h; exact Or.inl (hq _ hwc)
      · exact Or.inr (hrest'.tail ⟨w, hwrest, hwid, hwc⟩)

theorem respects_no_cycle :
    ∀ (l : List Query) (em : List Int),
      respects em l →
      (∀ x ∈ em, x ∉ l.map (·.id)) →
      (l.map (·.id)).Nodup →
      ¬ ∃ a, Relation.TransGen (depRelL l) a a := by
  intro l
  induction l with
  | nil =>
    intro em _ _ _ ⟨a, ht⟩
    exact no_transGen_of_no_rel (by rintro x y ⟨w, hw, _⟩; simp at hw) ht
  | cons q rest ih =>
    intro em hresp hdisj hnodup ⟨a, ht⟩
    rcases transGen_cons_split q rest em hresp.1 hdisj a a ht with hem | hrest
    · rcases (Relation.TransGen.head'_iff.mp ht) with ⟨b, hab, _⟩
      rcases hab with ⟨w, hw, hwid, _⟩
      exact absurd (hwid ▸ (List.mem_map_of_mem (·.id) hw)) (hdisj _ hem)
    · have hnodup' : (q.id :: rest.map (·.id)).Nodup := by simpa using hnodup
      have hndq : q.id ∉ rest.map (·.id) := (List.nodup_cons.mp hnodup').1
      refine ih (q.id :: em) hresp.2 ?_ ?_ ⟨a, hrest⟩
      · intro x hx
        rcases List.mem_cons.mp hx with h | hxem
        · subst h; exact hndq
        · intro hmem
          exact hdisj x hxem (by simpa using Or.inr (by simpa using hmem))
      · exact (List.nodup_cons.mp hnodup').2

theorem depRelL_of_subset {l l' : List Query} (hs : l ⊆ l') :
    ∀ a b, depRelL l a b → depRelL l' a b := by
  rintro a b ⟨w, hw, h1, h2⟩
  exact ⟨w, hs hw, h1, h2⟩

theorem topologicalOrder_ok_no_cycle (g : QueryPlan) (hu : UniqueIds g)
    (l : List Query) (h : topologicalOrder g = .ok l) : ¬ HasCycle g := by
  have hk : kahnAux [] g.query_graph g.query_graph.length = .ok l := h
  have hperm := kahnAux_ok_perm _ _ _ _ hk
  have hresp := kahnAux_ok_respects _ _ _ _ hk
  have hids : (l.map (·.id)).Perm (g.query_graph.map (·.id)) := hperm.map (·.id)
  have hnodup : (l.map (·.id)).Nodup := hids.nodup_iff.mpr hu
  have hnc := respects_no_cycle l [] hresp (by simp) hnodup
  rintro ⟨a, ht⟩
  exact hnc ⟨a, ht.mono (depRelL_of_subset hperm.symm.subset)⟩

theorem topologicalOrder_cyclic (g : QueryPlan) (hu : UniqueIds g)
    (hc : HasCycle g) : topologicalOrder g = .error .CyclicDependency := by
  cases h : topologicalOrder g with
  | ok l => exact absurd hc (topologicalOrder_ok_no_cycle g hu l h)
  | error e =>
    have h' : kahnAux [] g.query_graph g.query_graph.length = .error e := h
    rw [kahnAux_error _ _ _ _ h']

theorem exists_ready_of_acyclic :
    ∀ (k : Nat) (pending : List Query) (em : List Int) (a : Int) (visited : List Int),
      a ∈ pending.map (·.id) →
      a ∉ visited →
      visited ⊆ pending.map (·.id) →
      visited.Nodup →
      (∀ v ∈ visited, Relation.TransGen (depRelL pending) v a) →
      (∀ q ∈ pending, ∀ d ∈ q.dependancies, d ∈ em ∨ d ∈ pending.map (·.id)) →
      (¬ ∃ c, Relation.TransGen (depRelL pending) c c) →
      (pending.map (·.id)).length ≤ visited.length + 1 + k →
      ∃ q ∈ pending, readyQ em q = true := by
  intro k
  induction k with
  | zero =>
    intro pending em a visited hmem hnv hsub hvnd hvis hclosed hacyc hk
    obtain ⟨q, hq, hqid⟩ := List.mem_map.mp hmem
    by_cases hr : readyQ em q = true
    · exact ⟨q, hq, hr⟩
    · exfalso
      obtain ⟨d, hd, hdem⟩ : ∃ d ∈ q.dependancies, d ∉ em := by
        by_contra hall
        push_neg at hall
        exact hr (by simp [readyQ, List.all_eq_true]; intro d hd; simpa using hall d hd)
      have hedge : depRelL pending a d := ⟨q, hq, hqid, hd⟩
      have hdids : d ∈ pending.map (·.id) := by
        rcases hclosed q hq d hd with h | h
        · exact absurd h hdem
        · exact h
      by_cases hda : d = a
      · exact hacyc ⟨a, Relation.TransGen.single (hda ▸ hedge)⟩
      · by_cases hdv : d ∈ visited
        · exact hacyc ⟨d, (hvis d hdv).tail hedge⟩
        · have hnds : (d :: a :: visited).Nodup := by
            simp only [List.nodup_cons]
            exact ⟨by simp [hda, hdv], by simp [hnv], hvnd⟩
          have hsubs : (d :: a :: visited) ⊆ pending.map (·.id) := by
            intro x hx
            rcases List.mem_cons.mp hx with h | hx
            · exact h ▸ hdids
            · rcases List.mem_cons.mp hx with h | hx
              · exact h ▸ hmem
              · exact hsub hx
          have := (hnds.subperm hsubs).length_le
          simp only [List.length_cons, List.length_map] at this hk
          omega
  | succ k ih =>
    intro pending em a visited hmem hnv hsub hvnd hvis hclosed hacyc hk
    obtain ⟨q, hq, hqid⟩ := List.mem_map.mp hmem
    by_cases hr : readyQ em q = true
    · exact ⟨q, hq, hr⟩
    · obtain ⟨d, hd, hdem⟩ : ∃ d ∈ q.dependancies, d ∉ em := by
        by_contra hall
        push_neg at hall
        exact hr (by simp [readyQ, List.all_eq_true]; intro d hd; simpa using hall d hd)
      have hedge : depRelL pending a d := ⟨q, hq, hqid, hd⟩
      have hdids : d ∈ pending.map (·.id) := by
        rcases hclosed q hq d hd with h | h
        · exact absurd h hdem
        · exact h
      by_cases hda : d = a
      · exact absurd ⟨a, Relation.TransGen.single (hda ▸ hedge)⟩ hacyc
      · by_cases hdv : d ∈ visited
        · exact absurd ⟨d, (hvis d hdv).tail hedge⟩ hacyc
        · refine ih pending em d (a :: visited) hdids ?_ ?_ ?_ ?_ hclosed hacyc ?_
          · simp [hda, hdv]
          · intro x hx
            rcases List.mem_cons.mp hx with h | hx
            · exact h ▸ hmem
            · exact hsub hx
          · simp only [List.nodup_cons]
            exact ⟨hnv, hvnd⟩
          · intro v hv
            rcases List.mem_cons.mp hv with h | hv
            · exact h ▸ Relation.TransGen.single hedge
            · exact (hvis v hv).tail hedge
          · simp only [List.length_cons, List.length_map] at hk ⊢
            omega

theorem kahnAux_complete :
    ∀ (fuel : Nat) (pending : List Query) (em : List Int),
      pending.length ≤ fuel →
      (∀ q ∈ pending, ∀ d ∈ q.dependancies, d ∈ em ∨ d ∈ pending.map (·.id)) →
      (pending.map (·.id)).Nodup →
      (¬ ∃ c, Relation.TransGen (depRelL pending) c c) →
      ∃ l, kahnAux em pending fuel = .ok l := by
  intro fuel
  induction fuel with
  | zero =>
    intro pending em hlen _ _ _
    have hnil : pending = [] := List.eq_nil_of_length_eq_zero (Nat.le_zero.mp hlen)
    exact ⟨[], by rw [hnil]; exact kahnAux_nil _ _⟩
  | succ f ih =>
    intro pending em hlen hclosed hnodup hacyc
    cases pending with
    | nil => exact ⟨[], kahnAux_nil _ _⟩
    | cons x xs =>
      obtain ⟨q, hqmem, hqready⟩ :=
        exists_ready_of_acyclic (((x :: xs).map (·.id)).length) (x :: xs) em x.id []
          (by simp) (by simp) (by simp) List.nodup_nil (by simp) hclosed hacyc
          (by simp)
      have hsome := extractReady_isSome em (x :: xs) q hqmem hqready
      cases hex : extractReady em (x :: xs) with
      | none => rw [hex] at hsome; simp at hsome
      | some pr =>
        obtain ⟨r, rest⟩ := pr
        have hperm := extractReady_perm em _ _ _ hex
        have hlen' : rest.length ≤ f := by
          have := hperm.length_eq
          simp at this
          simp at hlen
          omega
        have hsub : rest ⊆ x :: xs := by
          intro y hy
          exact hperm.symm.subset (List.mem_cons_of_mem r hy)
        have hidsperm : ((x :: xs).map (·.id)).Perm (r.id :: rest.map (·.id)) := by
          simpa using hperm.map (·.id)
        have hclosed' :
            ∀ q' ∈ rest, ∀ d ∈ q'.dependancies, d ∈ r.id :: em ∨ d ∈ rest.map (·.id) := by
          intro q' hq' d hd
          rcases hclosed q' (hsub hq') d hd with hem | hids
          · exact Or.inl (List.mem_cons_of_mem _ hem)
          · rcases List.mem_cons.mp (hidsperm.subset hids) with h | h
            · exact Or.inl (h ▸ List.mem_cons_self _ _)
            · exact Or.inr h
        have hnodup' : (rest.map (·.id)).Nodup :=
          (List.nodup_cons.mp (hidsperm.nodup_iff.mp hnodup)).2
        have hacyc' : ¬ ∃ c, Relation.TransGen (depRelL rest) c c := by
          rintro ⟨c, hc⟩
          exact hacyc ⟨c, hc.mono (depRelL_of_subset hsub)⟩
        obtain ⟨l, hl⟩ := ih rest (r.id :: em) hlen' hclosed' hnodup' hacyc'
        refine ⟨r :: l, ?_⟩
        rw [kahnAux_cons_some f hex, hl]
        rfl

theorem topologicalOrder_complete (g : QueryPlan) (hu : UniqueIds g)
    (hnd : NoDangling g) (hac : ¬ HasCycle g) : ∃ l, topologicalOrder g = .ok l := by
  refine kahnAux_complete g.query_graph.length g.query_graph [] (Nat.le_refl _) ?_ hu ?_
  · intro q hq d hd
    exact Or.inr (hnd q hq d hd)
  · rintro ⟨c, hc⟩
    exact hac ⟨c, hc⟩

theorem findDup_eq_none (l : List Int) : findDup l = none ↔ l.Nodup := by
  induction l with
  | nil => simp [findDup]
  | cons x xs ih => by_cases hx : x ∈ xs <;> simp [findDup, hx, ih]

theorem findDup_isSome (l : List Int) (h : ¬ l.Nodup) : ∃ i, findDup l = some i := by
  cases hf : findDup l with
  | none => exact absurd ((findDup_eq_none l).mp hf) h
  | some i => exact ⟨i, rfl⟩

theorem findDanglingDep_eq_none (g : QueryPlan) :
    findDanglingDep g = none ↔ NoDangling g := by
  simp only [findDanglingDep, List.find?_eq_none, List.mem_flatMap, NoDangling]
  constructor
  · intro h q hq d hd
    have := h d ⟨q, hq, hd⟩
    simpa [QueryPlan.ids] using this
  · intro h d ⟨q, hq, hd⟩
    simpa [QueryPlan.ids] using h q hq d hd

theorem findDanglingDep_isSome (g : QueryPlan) (h : ¬ NoDangling g) :
    ∃ d, findDanglingDep g = some d := by
  cases hf : findDanglingDep g with
  | none => exact absurd ((findDanglingDep_eq_none g).mp hf) h
  | some d => exact ⟨d, rfl⟩

theorem validate_dup (g : QueryPlan) (h : ¬ UniqueIds g) :
    ∃ i, validate g = .error (.DuplicateId i) := by
  obtain ⟨i, hi⟩ := findDup_isSome g.ids h
  exact ⟨i, by simp [validate, hi]⟩

theorem validate_dangling (g : QueryPlan) (hu : UniqueIds g) (h : ¬ NoDangling g) :
    ∃ d, validate g = .error (.DanglingDependency d) := by
  have h1 : findDup g.ids = none := (findDup_eq_none _).mpr hu
  obtain ⟨d, hd⟩ := findDanglingDep_isSome g h
  exact ⟨d, by simp [validate, h1, hd]⟩

theorem validate_cyclic (g : QueryPlan) (hu : UniqueIds g) (hnd : NoDangling g)
    (hc : HasCycle g) : validate g = .error .CyclicDependency := by
  simp [validate, (findDup_eq_none _).mpr hu, (findDanglingDep_eq_none g).mpr hnd,
    topologicalOrder_cyclic g hu hc]

theorem validate_ok (g : QueryPlan) (hu : UniqueIds g) (hnd : NoDangling g)
    (hac : ¬ HasCycle g) : validate g = .ok () := by
  obtain ⟨l, hl⟩ := topologicalOrder_complete g hu hnd hac
  simp [validate, (findDup_eq_none _).mpr hu, (findDanglingDep_eq_none g).mpr hnd, hl]

theorem validate_ok_topo (g : QueryPlan) (h : validate g = .ok ()) :
    ∃ l, topologicalOrder g = .ok l := by
  unfold validate at h
  cases h1 : findDup g.ids with
  | some i => simp only [h1] at h; exact absurd h (by simp)
  | none =>
    simp only [h1] at h
    cases h2 : findDanglingDep g with
    | some d => simp only [h2] at h; exact absurd h (by simp)
    | none =>
      simp only [h2] at h
      cases h3 : topologicalOrder g with
      | ok l => exact ⟨l, rfl⟩
      | error e => simp only [h3] at h; exact absurd h (by simp)

theorem afterDeps_of_respects (l : List Query) (h : respects [] l) : afterDeps l := by
  intro i d hd
  rcases respects_mem [] l h i d hd with h0 | h1
  · simp at h0
  · exact h1

/-! Concrete plans used by counterexamples and witnesses. -/

/-- The spec's concrete well-formed scenario (section 8). -/
def planOk : QueryPlan :=
  ⟨[{ id := 1, question := "a" }, { id := 2, question := "b" },
    { id := 3, question := "c", dependancies := [1] },
    { id := 4, question := "d", dependancies := [2, 3] }]⟩

/-- The spec's concrete two-node cycle (section 8). -/
def planCyc : QueryPlan :=
  ⟨[{ id := 1, question := "a", dependancies := [2] },
    { id := 2, question := "b", dependancies := [1] }]⟩

/-- Two nodes sharing id 1, the first with a dangling dependency on 99. -/
def planDup : QueryPlan :=
  ⟨[{ id := 1, question := "a", dependancies := [99] },
    { id := 1, question := "b" }]⟩

/-- One node with a dangling dependency on 99 (the spec's section 8 scenario). -/
def planDang : QueryPlan := ⟨[{ id := 1, question := "a", dependancies := [99] }]⟩

/-- Duplicate ids together with a cycle between ids 1 and 2. -/
def planDupCyc : QueryPlan :=
  ⟨[{ id := 1, question := "a" },
    { id := 1, question := "b", dependancies := [2] },
    { id := 2, question := "c", dependancies := [1] }]⟩

/-- A node with id 0 and an empty question, accepted by construction. -/
def qBad : Query := { id := 0, question := "" }

/-- A plan holding qBad. -/
def planBad : QueryPlan := ⟨[qBad]⟩

theorem topoOk_planOk : topologicalOrder planOk = .ok planOk.query_graph := rfl

theorem noCycle_planOk : ¬ HasCycle planOk :=
  topologicalOrder_ok_no_cycle planOk (by decide) planOk.query_graph topoOk_planOk

theorem edge_planCyc_12 : depRel planCyc 1 2 := by
  refine ⟨{ id := 1, question := "a", dependancies := [2] }, ?_, rfl, ?_⟩ <;> simp [planCyc]

theorem edge_planCyc_21 : depRel planCyc 2 1 := by
  refine ⟨{ id := 2, question := "b", dependancies := [1] }, ?_, rfl, ?_⟩ <;> simp [planCyc]

theorem hasCycle_planCyc : HasCycle planCyc :=
  ⟨1, Relation.TransGen.head edge_planCyc_12 (Relation.TransGen.single edge_planCyc_21)⟩

theorem edge_planDupCyc_12 : depRel planDupCyc 1 2 := by
  refine ⟨{ id := 1, question := "b", dependancies := [2] }, ?_, rfl, ?_⟩ <;> simp [planDupCyc]

theorem edge_planDupCyc_21 : depRel planDupCyc 2 1 := by
  refine ⟨{ id := 2, question := "c", dependancies := [1] }, ?_, rfl, ?_⟩ <;> simp [planDupCyc]

theorem hasCycle_planDupCyc : HasCycle planDupCyc :=
  ⟨1, Relation.TransGen.head edge_planDupCyc_12 (Relation.TransGen.single edge_planDupCyc_21)⟩

/-! The claims. -/

/-- C1 (amended): for every graph with unique node ids, no dangling dependency
ids, and an acyclic dependency relation, validate returns success; a graph with
two nodes sharing an id fails with DuplicateId; a graph with unique ids and a
dangling dependency id fails with DanglingDependency; and a graph with unique
ids, no dangling dependencies, and a cyclic dependency relation fails with
CyclicDependency.  (The qualifications on the dangling and cyclic cases are
forced: a single-error validator must pick one error when several conditions
hold at once, and the earlier checks take precedence.) -/
theorem validate_classification (g : QueryPlan) :
    (UniqueIds g → NoDangling g → ¬ HasCycle g → validate g = .ok ()) ∧
    (¬ UniqueIds g → ∃ i, validate g = .error (.DuplicateId i)) ∧
    (UniqueIds g → ¬ NoDangling g → ∃ d, validate g = .error (.DanglingDependency d)) ∧
    (UniqueIds g → NoDangling g → HasCycle g → validate g = .error .CyclicDependency) :=
  ⟨validate_ok g, validate_dup g, validate_dangling g, validate_cyclic g⟩

/-- C1 counterexample: planDup has a dependency id (99) not present among its
node ids, yet validate fails with DuplicateId and not with DanglingDependency,
refuting the claim's unqualified universal for dangling dependencies. -/
theorem validate_dangling_shadowed :
    (∃ q ∈ planDup.query_graph, ∃ d ∈ q.dependancies, d ∉ planDup.ids) ∧
    validate planDup = .error (.DuplicateId 1) ∧
    ∀ d, validate planDup ≠ .error (.DanglingDependency d) := by
  refine ⟨by decide, rfl, ?_⟩
  intro d h
  rw [show validate planDup = .error (.DuplicateId 1) from rfl] at h
  simp at h

/-- C1 witness: the classification applied to concrete plans for each of the
four cases. -/
theorem validate_classification_witness :
    validate planOk = .ok () ∧
    (∃ i, validate planDup = .error (.DuplicateId i)) ∧
    (∃ d, validate planDang = .error (.DanglingDependency d)) ∧
    validate planCyc = .error .CyclicDependency :=
  ⟨(validate_classification planOk).1 (by decide) (by decide) noCycle_planOk,
   (validate_classification planDup).2.1 (by decide),
   (validate_classification planDang).2.2.1 (by decide) (by decide),
   (validate_classification planCyc).2.2.2 (by decide) (by decide) hasCycle_planCyc⟩

/-- C2 (amended): for every graph on which validate succeeds, topologicalOrder
returns a permutation of the graph's nodes in which every node appears after
all of its dependencies; the result is deterministic for identical input; and
for every graph with unique ids whose dependency relation contains a cycle,
topologicalOrder fails with CyclicDependency.  (The unique-ids qualification
on the cyclic case is forced: with duplicate ids a cycle among ids can be
broken by an already-emitted node carrying the same id.) -/
theorem topologicalOrder_spec (g : QueryPlan) :
    (validate g = .ok () →
      ∃ l, topologicalOrder g = .ok l ∧ l.Perm g.query_graph ∧ afterDeps l) ∧
    (∀ g' : QueryPlan, g = g' → topologicalOrder g = topologicalOrder g') ∧
    (UniqueIds g → HasCycle g → topologicalOrder g = .error .CyclicDependency) := by
  refine ⟨?_, ?_, topologicalOrder_cyclic g⟩
  · intro h
    obtain ⟨l, hl⟩ := validate_ok_topo g h
    have h1 : kahnAux [] g.query_graph g.query_graph.length = .ok l := hl
    exact ⟨l, hl, kahnAux_ok_perm _ _ _ _ h1,
      afterDeps_of_respects l (kahnAux_ok_respects _ _ _ _ h1)⟩
  · intro g' he
    rw [he]

/-- C2 counterexample: planDupCyc's dependency relation contains a cycle
(id 1 depends on 2 and id 2 on 1), yet topologicalOrder succeeds, refuting the
claim's unqualified universal for cyclic graphs; the duplicate of id 1 with no
dependencies breaks the cycle. -/
theorem topologicalOrder_cycle_unreported :
    HasCycle planDupCyc ∧ topologicalOrder planDupCyc ≠ .error .CyclicDependency := by
  refine ⟨hasCycle_planDupCyc, ?_⟩
  intro h
  rw [show topologicalOrder planDupCyc =
      .ok [{ id := 1, question := "a" },
           { id := 2, question := "c", dependancies := [1] },
           { id := 1, question := "b", dependancies := [2] }] from rfl] at h
  simp at h

/-- C2 witness: the ordering contract applied to the spec's concrete valid
plan and to the spec's concrete two-node cycle. -/
theorem topologicalOrder_spec_witness :
    (∃ l, topologicalOrder planOk = .ok l ∧ l.Perm planOk.query_graph ∧ afterDeps l) ∧
    topologicalOrder planOk = topologicalOrder planOk ∧
    topologicalOrder planCyc = .error .CyclicDependency :=
  ⟨(topologicalOrder_spec planOk).1 rfl,
   (topologicalOrder_spec planOk).2.1 planOk rfl,
   (topologicalOrder_spec planCyc).2.2 (by decide) hasCycle_planCyc⟩

/-- C3 counterexample: a Query with id 0 (not positive) and an empty question
is representable inside a QueryPlan, refuting the claim that the data model
makes non-positive ids and empty question strings unrepresentable. -/
theorem query_invalid_fields_representable :
    qBad ∈ planBad.query_graph ∧ ¬ (0 < qBad.id) ∧ qBad.question = "" :=
  ⟨by simp [planBad], by decide, rfl⟩

/-- C3 (amended): the data model places no constraint on a node's id or
question — every integer id (including non-positive ones) and every string
question (including the empty string) is representable in a graph; positivity,
uniqueness and non-emptiness are not enforced by construction. -/
theorem query_fields_unconstrained (i : Int) (s : String) :
    ∃ g : QueryPlan, ∃ q ∈ g.query_graph, q.id = i ∧ q.question = s :=
  ⟨⟨[{ id := i, question := s }]⟩, { id := i, question := s }, by simp, rfl, rfl⟩

/-- C4: the node-kind enumeration has exactly two members, and every node's
node_type field serializes to one of the two enumerated string values; no
other kind value is representable. -/
theorem queryType_two_members :
    (∀ k : QueryType,
      k = QueryType.SINGLE_QUESTION ∨ k = QueryType.MERGE_MULTIPLE_RESPONSES) ∧
    (∀ q : Query,
      q.node_type.value = "SINGLE" ∨ q.node_type.value = "MERGE_MULTIPLE_RESPONSES") := by
  constructor
  · intro k
    cases k
    · exact Or.inl rfl
    · exact Or.inr rfl
  · intro q
    cases hq : q.node_type
    · exact Or.inl rfl
    · exact Or.inr rfl

/-- C5 counterexample: the serialized node record carries the dependency list
under the key "dependancies" (the source's spelling) and has no key
"dependencies", refuting the claim's key list. -/
theorem serialized_key_spelling :
    (Query.toDict qBad).map Prod.fst =
      ["id", "question", "dependancies", "node_type", "original_question"] ∧
    lookupKey (Query.toDict qBad) "dependencies" = none :=
  ⟨rfl, rfl⟩

/-- C5 (amended): for every QueryPlan, its serialized form is a mapping with a
query_graph list whose node records each contain exactly the keys id,
question, dependancies (spelled as in the source, a list of integers),
node_type, and original_question (a boolean). -/
theorem queryPlan_serialization_shape (p : QueryPlan) :
    p.toDict.map Prod.fst = ["query_graph"] ∧
    lookupKey p.toDict "query_graph" =
      some (JsonV.jarr (p.query_graph.map (fun q => JsonV.jobj q.toDict))) ∧
    ∀ q ∈ p.query_graph,
      (Query.toDict q).map Prod.fst =
        ["id", "question", "dependancies", "node_type", "original_question"] ∧
      lookupKey (Query.toDict q) "id" = some (JsonV.jnum q.id) ∧
      lookupKey (Query.toDict q) "dependancies" =
        some (JsonV.jarr (q.dependancies.map JsonV.jnum)) ∧
      lookupKey (Query.toDict q) "node_type" = some (JsonV.jstr q.node_type.value) ∧
      lookupKey (Query.toDict q) "original_question" =
        some (JsonV.jbool q.original_question) :=
  ⟨rfl, rfl, fun _ _ => ⟨rfl, rfl, rfl, rfl, rfl⟩⟩

/-- C5 witness: the record shape read off a concrete plan's node. -/
theorem queryPlan_serialization_shape_witness :
    (Query.toDict qBad).map Prod.fst =
      ["id", "question", "dependancies", "node_type", "original_question"] :=
  ((queryPlan_serialization_shape planBad).2.2 qBad (by simp [planBad])).1

/-- C6: a Query constructed with only an id and a question has an empty
dependency list, kind SINGLE_QUESTION, and an unset root flag. -/
theorem query_defaults (i : Int) (s : String) :
    ({ id := i, question := s } : Query).dependancies = [] ∧
    ({ id := i, question := s } : Query).node_type = QueryType.SINGLE_QUESTION ∧
    ({ id := i, question := s } : Query).original_question = false :=
  ⟨rfl, rfl, rfl⟩

/-- C7: neither validate nor topologicalOrder modifies its input graph — the
graph after either call is the input itself, also on the error paths. -/
theorem core_ops_leave_graph_unchanged (g : QueryPlan) :
    (validateRun g).2 = g ∧ (topologicalOrderRun g).2 = g :=
  ⟨rfl, rfl⟩

/-- C8: running validate a second time, on the graph as the first run left it,
yields the result of the first run. -/
theorem validate_idempotent (g : QueryPlan) :
    validate (validateRun g).2 = (validateRun g).1 :=
  rfl

/-- C9: construction performs no structural validation — every integer id,
every string question and every dependency list yield a constructible Query,
and every node list (including ones with duplicates, danglers or cycles)
yields a constructible QueryPlan. -/
theorem construction_unvalidated :
    (∀ (i : Int) (s : String) (deps : List Int),
      ∃ q : Query, q.id = i ∧ q.question = s ∧ q.dependancies = deps) ∧
    (∀ qs : List Query, ∃ p : QueryPlan, p.query_graph = qs) :=
  ⟨fun i s deps => ⟨{ id := i, question := s, dependancies := deps }, rfl, rfl, rfl⟩,
   fun qs => ⟨⟨qs⟩, rfl⟩⟩

/-- C10: parsing a node kind from its serialized string accepts exactly
"SINGLE" and "MERGE_MULTIPLE_RESPONSES", yielding the corresponding member,
and rejects every other string. -/
theorem queryType_parse_exact :
    ∀ (s : String) (k : QueryType),
      QueryType.parse s = some k ↔
        ((s = "SINGLE" ∧ k = QueryType.SINGLE_QUESTION) ∨
         (s = "MERGE_MULTIPLE_RESPONSES" ∧ k = QueryType.MERGE_MULTIPLE_RESPONSES)) := by
  intro s k
  by_cases h1 : s = "SINGLE"
  · subst h1
    cases k <;>
      simp [show QueryType.parse "SINGLE" = some QueryType.SINGLE_QUESTION from rfl]
  · by_cases h2 : s = "MERGE_MULTIPLE_RESPONSES"
    · subst h2
      cases k <;>
        simp [show QueryType.parse "MERGE_MULTIPLE_RESPONSES" =
          some QueryType.MERGE_MULTIPLE_RESPONSES from rfl]
    · have e1 : (("SINGLE" : String) == s) = false :=
        beq_eq_false_iff_ne.mpr (fun he => h1 he.symm)
      have e2 : (("MERGE_MULTIPLE_RESPONSES" : String) == s) = false :=
        beq_eq_false_iff_ne.mpr (fun he => h2 he.symm)
      have hp : QueryType.parse s = none := by
        simp [QueryType.parse, QueryType.value, List.find?, e1, e2]
      rw [hp]
      simp [h1, h2]

end QuerySub
